import Mathlib

/-!
Verification of the `reshape` data-shape transformation utilities.

The repository converts arrays of records into keyed lookup containers
(`Map` / plain-object `Record`) and back.  This file shallowly embeds the
TypeScript source in Lean:

* `Prim` / `Value` / `Fields` model JavaScript values: primitives, and
  objects as insertion-ordered field lists (`Fields`).
* JavaScript `Map`s and plain-object records are modelled as association
  lists; `Map.set` and property assignment both replace an existing entry
  in place and append a fresh one (`assocSet`).
* Plain-object key enumeration (`Object.entries`) lists array-index-like
  keys first in ascending numeric order, then the remaining string keys in
  insertion order (`jsEntries`).  Field names of ordinary records in this
  development are assumed not to be array-index-like (true of every record
  in the repository), so a record's stored order is its enumeration order.
* `Map` key equality is SameValueZero; on primitives this coincides with
  the structural equality used here.  Object-valued keys compare by
  reference in JavaScript; the embedding compares them structurally, which
  agrees with JavaScript whenever the keys involved are primitives (the
  only keys exercised by the specification).
* The validating family (`src/array.ts`) raises on non-array input; this
  is modelled with `Except`, a thrown error producing no container.
* The `Record`-building transformers accumulate into a `{}` literal, which
  inherits from `Object.prototype`: assignment at the key `__proto__` fires
  the inherited accessor and stores no own entry (`recAssign`), and the
  multi-record's `acc[key]` read finds inherited members at
  `Object.prototype` member names, making the subsequent `push` throw a
  `TypeError`.  The validating `arrayToRecord` accumulates into
  `Object.create(null)`, which has no prototype chain, so plain
  `assocSet` is faithful for it.

Namespaces mirror the source files: `Transformers` for
`src/transformers/array.ts` and `src/transformers/map.ts`, `Validated` for
`src/array.ts`, and `Part002` for the unnamed source file holding the
scalar/composite single-valued reverse projector.
-/

/-- JavaScript primitive values (integers stand in for numbers). -/
inductive Prim where
  | pnum (n : Int)
  | pstr (s : String)
  | pbool (b : Bool)
  | pnull
  | pundefined
deriving DecidableEq, Repr

mutual

/-- A JavaScript value: a primitive or an object. -/
inductive Value where
  | prim (p : Prim)
  | vobj (o : Fields)
deriving DecidableEq, Repr

/-- The fields of a JavaScript object, in property order. -/
inductive Fields where
  | fnil
  | fcons (k : String) (v : Value) (t : Fields)
deriving DecidableEq, Repr

end

/-- Structural induction for `Fields` (the mutually defined recursor has
multiple motives, so the `induction` tactic needs this derived one). -/
@[induction_eliminator]
theorem Fields.inductionOn {motive : Fields → Prop} (fnil : motive .fnil)
    (fcons : ∀ k v t, motive t → motive (.fcons k v t)) : ∀ o, motive o
  | .fnil => fnil
  | .fcons k v t => fcons k v t (Fields.inductionOn fnil fcons t)

namespace Fields

/-- Property read `o[p]`: the stored value, or `undefined` when absent. -/
def get : Fields → String → Value
  | .fnil, _ => .prim .pundefined
  | .fcons k v t, p => if k = p then v else get t p

/-- Own-property test `Object.hasOwn(o, p)`. -/
def has : Fields → String → Bool
  | .fnil, _ => false
  | .fcons k _ t, p => k = p || has t p

/-- Property write `o[p] = v`: replace in place, or append a fresh field. -/
def set : Fields → String → Value → Fields
  | .fnil, p, v => .fcons p v .fnil
  | .fcons k w t, p, v => if k = p then .fcons k v t else .fcons k w (set t p v)

/-- The field names of an object, in property order. -/
def keys : Fields → List String
  | .fnil => []
  | .fcons k _ t => k :: keys t

/-- Number of own fields. -/
def size : Fields → Nat
  | .fnil => 0
  | .fcons _ _ t => size t + 1

/-- Concatenation of two field lists (no key deduplication). -/
def cat : Fields → Fields → Fields
  | .fnil, o => o
  | .fcons k v t, o => .fcons k v (cat t o)

/-- Build an object by assigning the listed pairs in order, as
`Object.fromEntries` does: a repeated key overwrites in place. -/
def ofPairs (l : List (String × Value)) : Fields :=
  l.foldl (fun o p => o.set p.1 p.2) .fnil

/-- Build an object whose field list is exactly the given pairs. -/
def ofListRaw : List (String × Value) → Fields
  | [] => .fnil
  | (k, v) :: t => .fcons k v (ofListRaw t)

/-- Object spread `{ ...dst, ...src }`: assign the fields of `src` onto
`dst` in order. -/
def spread : Fields → Fields → Fields
  | dst, .fnil => dst
  | dst, .fcons k v t => spread (dst.set k v) t

@[simp] theorem get_fnil (p : String) : get .fnil p = .prim .pundefined := rfl

@[simp] theorem has_fnil (p : String) : has .fnil p = false := rfl

theorem get_set_self (o : Fields) (p : String) (v : Value) :
    (o.set p v).get p = v := by
  induction o with
  | fnil => simp [set, get]
  | fcons k w t ih =>
    by_cases h : k = p
    · simp [set, get, h]
    · simp [set, get, h, ih]

theorem get_set_ne (o : Fields) (p q : String) (v : Value) (h : p ≠ q) :
    (o.set p v).get q = o.get q := by
  induction o with
  | fnil => simp [set, get, h]
  | fcons k w t ih =>
    by_cases hk : k = p
    · subst hk
      simp [set, get, h]
    · simp [set, hk]
      by_cases hq : k = q <;> simp [get, hq, ih]

theorem has_set (o : Fields) (p q : String) (v : Value) :
    (o.set p v).has q = (o.has q || decide (p = q)) := by
  induction o with
  | fnil => simp [set, has]
  | fcons k w t ih =>
    by_cases hk : k = p
    · subst hk
      simp only [set, if_pos rfl, has]
      cases h : decide (k = q) <;> simp [h]
    · simp only [set, if_neg hk, has, ih, Bool.or_assoc]

theorem set_get_self_of_has (o : Fields) (p : String) (h : o.has p = true) :
    o.set p (o.get p) = o := by
  induction o with
  | fnil => simp [has] at h
  | fcons k w t ih =>
    by_cases hk : k = p
    · simp [set, get, hk]
    · simp [has, hk] at h
      simp [set, get, hk, ih h]

@[simp] theorem keys_cat (a b : Fields) : (a.cat b).keys = a.keys ++ b.keys := by
  induction a with
  | fnil => simp [cat, keys]
  | fcons k v t ih => simp [cat, keys, ih]

@[simp] theorem cat_fnil (a : Fields) : a.cat .fnil = a := by
  induction a with
  | fnil => rfl
  | fcons k v t ih => simp [cat, ih]

@[simp] theorem keys_ofListRaw (l : List (String × Value)) :
    (ofListRaw l).keys = l.map Prod.fst := by
  induction l with
  | nil => simp [ofListRaw, keys]
  | cons p t ih => simp [ofListRaw, keys, ih]

end Fields

section Assoc

variable {κ α : Type} [DecidableEq κ]

/-- Lookup in an association list (first match; keys are unique for every
container built below). -/
def assocGet : List (κ × α) → κ → Option α
  | [], _ => none
  | e :: t, k => if e.1 = k then some e.2 else assocGet t k

/-- `Map.set` / property assignment: replace the existing entry for the key
in place, otherwise append a fresh entry. -/
def assocSet : List (κ × α) → κ → α → List (κ × α)
  | [], k, v => [(k, v)]
  | e :: t, k, v => if e.1 = k then (e.1, v) :: t else e :: assocSet t k v

/-- The multi-valued builders' step: append the value to the key's group,
creating the group at the end on first sight of the key. -/
def multiAdd : List (κ × List α) → κ → α → List (κ × List α)
  | [], k, v => [(k, [v])]
  | e :: t, k, v => if e.1 = k then (e.1, e.2 ++ [v]) :: t else e :: multiAdd t k v

@[simp] theorem assocGet_nil (k : κ) : assocGet ([] : List (κ × α)) k = none := rfl

theorem assocSet_of_get_none (m : List (κ × α)) (k : κ) (v : α)
    (h : assocGet m k = none) : assocSet m k v = m ++ [(k, v)] := by
  induction m with
  | nil => simp [assocSet]
  | cons e t ih =>
    by_cases he : e.1 = k
    · simp [assocGet, he] at h
    · simp only [assocGet, if_neg he] at h
      simp [assocSet, he, ih h]

theorem assocGet_multiAdd (m : List (κ × List α)) (k kv : κ) (v : α) :
    assocGet (multiAdd m k v) kv =
      if k = kv then some (((assocGet m kv).getD []) ++ [v]) else assocGet m kv := by
  induction m with
  | nil =>
    by_cases h : k = kv <;> simp [multiAdd, assocGet, h]
  | cons e t ih =>
    by_cases he : e.1 = k
    · subst he
      by_cases hv : e.1 = kv <;> simp [multiAdd, assocGet, hv, ih]
    · by_cases hv : e.1 = kv
      · subst hv
        have : ¬ k = e.1 := fun h => he h.symm
        simp [multiAdd, assocGet, he, this]
      · simp [multiAdd, assocGet, he, hv, ih]

theorem keys_multiAdd (m : List (κ × List α)) (k : κ) (v : α) :
    (multiAdd m k v).map Prod.fst =
      if (assocGet m k).isSome then m.map Prod.fst else m.map Prod.fst ++ [k] := by
  induction m with
  | nil => simp [multiAdd, assocGet]
  | cons e t ih =>
    by_cases he : e.1 = k
    · subst he
      simp [multiAdd, assocGet]
    · simp [multiAdd, assocGet, he, ih]
      by_cases h : (assocGet t k).isSome <;> simp [h]

end Assoc

/-- The own property names of `Object.prototype`, visible through the
prototype chain of a `{}`-born record accumulator. -/
def objectPrototypeKeys : List String :=
  ["constructor", "hasOwnProperty", "isPrototypeOf", "propertyIsEnumerable",
   "toLocaleString", "toString", "valueOf", "__defineGetter__",
   "__defineSetter__", "__lookupGetter__", "__lookupSetter__", "__proto__"]

/-- Property assignment `acc[k] = v` on a `{}`-born record: at the key
`__proto__` the inherited accessor of `Object.prototype` swallows the
assignment (it reassigns the prototype and never creates an own entry);
every other key becomes an own property, since the inherited data
properties of `Object.prototype` are writable and do not block
shadowing. -/
def recAssign {α : Type} (m : List (String × α)) (k : String) (v : α) :
    List (String × α) :=
  if k = "__proto__" then m else assocSet m k v

/-- The error taxonomy: the validating family's input check, and the
`TypeError` raised when the `{}`-born multi-record accumulator reads an
inherited `Object.prototype` member and calls `push` on it. -/
inductive JsError where
  | invalidInput
  | typeError
deriving DecidableEq, Repr

/-- JavaScript property-key stringification `String(k)`, applied when a
value is used as a plain-object key. -/
def toPropKey : Value → String
  | .prim (.pnum n) => toString n
  | .prim (.pstr s) => s
  | .prim (.pbool b) => cond b "true" "false"
  | .prim .pnull => "null"
  | .prim .pundefined => "undefined"
  | .vobj _ => "[object Object]"

/-- Decimal digit value of a character, if it is a digit. -/
def digitVal (c : Char) : Option Nat :=
  if 48 ≤ c.toNat ∧ c.toNat ≤ 57 then some (c.toNat - 48) else none

/-- Parse a nonempty all-digit string as a natural number. -/
def parseNat? (s : String) : Option Nat :=
  if s.data = [] then none
  else
    s.data.foldl
      (fun acc c =>
        match acc, digitVal c with
        | some n, some d => some (n * 10 + d)
        | _, _ => none)
      (some 0)

/-- Whether a string is an array-index-like property key (the canonical
decimal form of an integer below 2^32 - 1). -/
def isArrayIndex (s : String) : Bool :=
  match parseNat? s with
  | some n => decide (toString n = s ∧ n < 4294967295)
  | none => false

/-- Numeric value of an array-index-like key. -/
def idxNum (s : String) : Nat := (parseNat? s).getD 0

/-- Insert an entry into a list sorted by ascending numeric key. -/
def insertNum {α : Type} (p : String × α) : List (String × α) → List (String × α)
  | [] => [p]
  | q :: t => if idxNum p.1 ≤ idxNum q.1 then p :: q :: t else q :: insertNum p t

/-- Enumeration order of a plain object's entries (`Object.entries`):
array-index-like keys first in ascending numeric order, then the remaining
keys in insertion order. -/
def jsEntries {α : Type} (es : List (String × α)) : List (String × α) :=
  (es.filter (fun p => isArrayIndex p.1)).foldr insertNum []
    ++ es.filter (fun p => !isArrayIndex p.1)

/-- The optional value selector of the builders: `undefined`, an array of
field names, or a single field name (the source dispatches in that
order). -/
inductive ValueSel where
  | whole
  | fields (ps : List String)
  | field (p : String)
deriving DecidableEq, Repr

/-- Value resolution shared by the four builders in
`src/transformers/array.ts` (the conditional
`valueProps === undefined ? item : Array.isArray(valueProps) ? Object.fromEntries(...) : item[valueProps]`,
inlined identically in all four). -/
def resolveValue (sel : ValueSel) (item : Fields) : Value :=
  match sel with
  | .whole => .vobj item
  | .fields ps => .vobj (Fields.ofPairs (ps.map fun p => (p, item.get p)))
  | .field p => item.get p

namespace Transformers

/-- `new Map(iterable)`: fold `Map.set` over the entries. -/
def mkMap (es : List (Value × Value)) : List (Value × Value) :=
  es.foldl (fun m e => assocSet m e.1 e.2) []

/-- `arrayToMap` of `src/transformers/array.ts`:
`new Map(array.map((item) => [item[keyProp], value]))`. -/
def arrayToMap (a : List Fields) (keyProp : String) (sel : ValueSel) :
    List (Value × Value) :=
  mkMap (a.map fun item => (item.get keyProp, resolveValue sel item))

/-- `arrayToRecord` of `src/transformers/array.ts`: `array.reduce` with
`acc[key] = value` starting from `{}` (record keys are stringified; an
assignment at the stringified key `__proto__` is swallowed by the
accumulator's prototype chain and stores no own entry). -/
def arrayToRecord (a : List Fields) (keyProp : String) (sel : ValueSel) :
    List (String × Value) :=
  a.foldl
    (fun acc item =>
      recAssign acc (toPropKey (item.get keyProp)) (resolveValue sel item)) []

/-- `arrayToMultiMap` of `src/transformers/array.ts`: `forEach` creating an
empty group on first sight of a key and pushing the value onto it. -/
def arrayToMultiMap (a : List Fields) (keyProp : String) (sel : ValueSel) :
    List (Value × List Value) :=
  a.foldl (fun m item => multiAdd m (item.get keyProp) (resolveValue sel item)) []

/-- The reduction of `arrayToMultiRecord`: `let values = acc[key]` reads
through the prototype chain of the `{}` accumulator, so a key naming an
`Object.prototype` member finds the inherited member instead of `undefined`
and the subsequent `values.push(value)` throws a `TypeError`; other keys
group exactly as in the multi-map. -/
def arrayToMultiRecordGo (keyProp : String) (sel : ValueSel) :
    List Fields → List (String × List Value) →
      Except JsError (List (String × List Value))
  | [], acc => .ok acc
  | r :: t, acc =>
    match assocGet acc (toPropKey (r.get keyProp)) with
    | some _ =>
      arrayToMultiRecordGo keyProp sel t
        (multiAdd acc (toPropKey (r.get keyProp)) (resolveValue sel r))
    | none =>
      if toPropKey (r.get keyProp) ∈ objectPrototypeKeys then .error .typeError
      else
        arrayToMultiRecordGo keyProp sel t
          (multiAdd acc (toPropKey (r.get keyProp)) (resolveValue sel r))

/-- `arrayToMultiRecord` of `src/transformers/array.ts`: `array.reduce` over
a `{}` accumulator, grouping with stringified record keys, but raising a
`TypeError` when a key names an `Object.prototype` member. -/
def arrayToMultiRecord (a : List Fields) (keyProp : String) (sel : ValueSel) :
    Except JsError (List (String × List Value)) :=
  arrayToMultiRecordGo keyProp sel a []

end Transformers

/-- A keyed container passed to a reverse projector: a `Map` or a plain
object (`Record`). -/
inductive Keyed (α : Type) where
  | jmap (entries : List (Value × α))
  | jrec (entries : List (String × α))

/-- The `(key, value)` pairs a reverse projector iterates:
`map instanceof Map ? map.entries() : Object.entries(map)`.  `Object.entries`
yields string keys, in JavaScript's own-property enumeration order. -/
def entriesOf {α : Type} : Keyed α → List (Value × α)
  | .jmap es => es
  | .jrec es => (jsEntries es).map fun e => (.prim (.pstr e.1), e.2)

/-- Property read on an arbitrary value, `value[prop]`: object fields, and
`undefined` on primitives (index properties of strings are not modelled;
no transformer selects them). -/
def vGet (v : Value) (p : String) : Value :=
  match v with
  | .vobj o => o.get p
  | .prim _ => .prim .pundefined

/-- Object spread of an arbitrary value, `{ ...dst, ...v }`: an object
spreads its fields; numbers, booleans, `null` and `undefined` spread
nothing (index properties of strings are not modelled). -/
def spreadValue (dst : Fields) (v : Value) : Fields :=
  match v with
  | .vobj o => dst.spread o
  | .prim _ => dst

namespace Part002

/-- `mapToArray` of the unnamed source file (`src/unnamed/part_002`): for a
composite value `{ ...value, [keyProp]: key }`, for a scalar
`{ [keyProp]: key, value }` (the `typeof value === 'object' && value !== null`
branch). -/
def mapToArray (data : Keyed Value) (keyProp : String) : List Fields :=
  (entriesOf data).map fun e =>
    match e.2 with
    | .vobj o => o.set keyProp e.1
    | .prim q => Fields.ofPairs [(keyProp, e.1), ("value", .prim q)]

end Part002

namespace Transformers

/-- `mapToArray` of `src/transformers/map.ts`:
`{ [keyProp]: key, ...(valueProps === undefined ? value : Array.isArray(valueProps) ? reduce : { [valueProps]: value[valueProps] }) }`. -/
def mapToArray (data : Keyed Value) (keyProp : String) (sel : ValueSel) :
    List Fields :=
  (entriesOf data).map fun e =>
    let base : Fields := .fcons keyProp e.1 .fnil
    match sel with
    | .whole => spreadValue base e.2
    | .fields ps =>
        base.spread (ps.foldl (fun acc p => acc.set p (vGet e.2 p)) .fnil)
    | .field p => base.spread (Fields.ofPairs [(p, vGet e.2 p)])

/-- The optional `valueProps` of `multiMapToArray`: a single field name or
an array of field names. -/
inductive PropsSel where
  | field (p : String)
  | fields (ps : List String)
deriving DecidableEq, Repr

/-- `multiMapToArray` of `src/transformers/map.ts`: flatten the groups and
build `{ [keyProp]: key, ...(valueProps ? ... : { ...value }) }`.  The
dispatch tests the truthiness of `valueProps`, so an absent selector and
the empty-string field name both take the spread-the-whole-value branch. -/
def multiMapToArray (data : Keyed (List Value)) (keyProp : String)
    (osel : Option PropsSel) : List Fields :=
  (entriesOf data).flatMap fun e =>
    e.2.map fun v =>
      let base : Fields := .fcons keyProp e.1 .fnil
      match osel with
      | none => spreadValue base v
      | some (.field p) =>
          if p = "" then spreadValue base v
          else base.spread (Fields.ofPairs [(p, v)])
      | some (.fields ps) =>
          base.spread (ps.foldl (fun acc p => acc.set p (vGet v p)) (.fnil : Fields))

end Transformers

/-- The runtime input of the validating family: an actual array of records,
or any other value. -/
inductive JsInput where
  | isArr (a : List Fields)
  | notArr (v : Value)

namespace Validated

/-- The key resolver of `src/array.ts` for a field-name selector
(`(item) => item[keyProp]`; derivation-function selectors are outside this
development). -/
def getKey (keyProp : String) (item : Fields) : Value :=
  item.get keyProp

/-- The value resolver built once by `src/array.ts`: identity for an absent
selector, a loop `obj[prop] = item[prop]` for an array of field names, and
a property read for a single field name. -/
def getValue (sel : ValueSel) : Fields → Value :=
  match sel with
  | .whole => fun item => .vobj item
  | .fields ps =>
      fun item => .vobj (ps.foldl (fun o p => o.set p (item.get p)) (.fnil : Fields))
  | .field p => fun item => item.get p

/-- The loop of the validating `arrayToMap` after the input check:
`for (const item of array) map.set(getKey(item), getValue(item))`. -/
def arrayToMapCore (a : List Fields) (keyProp : String) (sel : ValueSel) :
    List (Value × Value) :=
  a.foldl (fun m item => assocSet m (getKey keyProp item) (getValue sel item)) []

/-- `arrayToMap` of `src/array.ts`: throws `InvalidInput` (a `TypeError`
labelled per the specification's taxonomy) unless the input is an array,
before any iteration. -/
def arrayToMap (input : JsInput) (keyProp : String) (sel : ValueSel) :
    Except JsError (List (Value × Value)) :=
  match input with
  | .notArr _ => .error .invalidInput
  | .isArr a => .ok (arrayToMapCore a keyProp sel)

/-- The reduction of the validating `arrayToRecord` after the input check:
`acc[getKey(item)] = getValue(item)` from an empty record. -/
def arrayToRecordCore (a : List Fields) (keyProp : String) (sel : ValueSel) :
    List (String × Value) :=
  a.foldl
    (fun acc item =>
      assocSet acc (toPropKey (getKey keyProp item)) (getValue sel item)) []

/-- `arrayToRecord` of `src/array.ts`: same input check, then the
reduction. -/
def arrayToRecord (input : JsInput) (keyProp : String) (sel : ValueSel) :
    Except JsError (List (String × Value)) :=
  match input with
  | .notArr _ => .error .invalidInput
  | .isArr a => .ok (arrayToRecordCore a keyProp sel)

end Validated

section FoldLemmas

variable {ι κ α : Type} [DecidableEq κ]

theorem assocGet_eq_none_of_not_mem (m : List (κ × α)) (k : κ)
    (h : k ∉ m.map Prod.fst) : assocGet m k = none := by
  induction m with
  | nil => rfl
  | cons e t ih =>
    simp only [List.map_cons, List.mem_cons, not_or] at h
    have hne : ¬ e.1 = k := fun hh => h.1 hh.symm
    simp [assocGet, hne, ih h.2]

theorem foldl_assocSet_of_nodup :
    ∀ (es : List (κ × α)) (m : List (κ × α)),
      (m.map Prod.fst ++ es.map Prod.fst).Nodup →
      es.foldl (fun acc e => assocSet acc e.1 e.2) m = m ++ es := by
  intro es
  induction es with
  | nil => intro m _; simp
  | cons e t ih =>
    intro m h
    have hmem : e.1 ∉ m.map Prod.fst := by
      rw [List.nodup_append] at h
      exact fun hm => h.2.2 hm (by simp)
    have hset : assocSet m e.1 e.2 = m ++ [e] := by
      rw [assocSet_of_get_none m e.1 e.2 (assocGet_eq_none_of_not_mem m e.1 hmem)]
    rw [List.foldl_cons, hset, ih (m ++ [e]) (by simpa [List.append_assoc] using h),
      List.append_assoc]
    rfl

/-- Total number of stored values in a multi-valued container. -/
def multiCount (m : List (κ × List α)) : Nat :=
  (m.map fun e => e.2.length).sum

theorem multiCount_multiAdd (m : List (κ × List α)) (k : κ) (v : α) :
    multiCount (multiAdd m k v) = multiCount m + 1 := by
  induction m with
  | nil => simp [multiAdd, multiCount]
  | cons e t ih =>
    by_cases he : e.1 = k
    · simp [multiAdd, multiCount, he]
      omega
    · simp [multiAdd, multiCount, he] at ih ⊢
      omega

theorem multiCount_foldl_multiAdd (f : ι → κ) (g : ι → α) (a : List ι) :
    ∀ m : List (κ × List α),
      multiCount (a.foldl (fun acc r => multiAdd acc (f r) (g r)) m) =
        multiCount m + a.length := by
  induction a with
  | nil => intro m; simp
  | cons r t ih =>
    intro m
    rw [List.foldl_cons, ih, multiCount_multiAdd]
    simp
    omega

theorem keys_multiAdd_mem (m : List (κ × List α)) (k : κ) (v : α) :
    (multiAdd m k v).map Prod.fst =
      if k ∈ m.map Prod.fst then m.map Prod.fst else m.map Prod.fst ++ [k] := by
  induction m with
  | nil => simp [multiAdd]
  | cons e t ih =>
    by_cases he : e.1 = k
    · simp [multiAdd, he]
    · have : ¬ k = e.1 := fun h => he h.symm
      simp only [multiAdd, if_neg he, List.map_cons, List.mem_cons, this, false_or]
      rw [ih]
      by_cases hm : k ∈ t.map Prod.fst <;> simp [hm]

/-- First-seen-order deduplication of a key sequence. -/
def firstSeen (l : List κ) : List κ :=
  l.foldl (fun acc k => if k ∈ acc then acc else acc ++ [k]) []

theorem keys_foldl_multiAdd (f : ι → κ) (g : ι → α) (a : List ι) :
    ∀ m : List (κ × List α),
      (a.foldl (fun acc r => multiAdd acc (f r) (g r)) m).map Prod.fst =
        (a.map f).foldl (fun acc k => if k ∈ acc then acc else acc ++ [k])
          (m.map Prod.fst) := by
  induction a with
  | nil => intro m; simp
  | cons r t ih =>
    intro m
    rw [List.foldl_cons, ih, List.map_cons, List.foldl_cons, keys_multiAdd_mem]

theorem assocGet_foldl_multiAdd (f : ι → κ) (g : ι → α) (kv : κ) (a : List ι) :
    ∀ m : List (κ × List α),
      assocGet (a.foldl (fun acc r => multiAdd acc (f r) (g r)) m) kv =
        (let gl := (a.filter fun r => decide (f r = kv)).map g
         match assocGet m kv with
         | some vs => some (vs ++ gl)
         | none => if gl.isEmpty then none else some gl) := by
  induction a with
  | nil =>
    intro m
    cases h : assocGet m kv <;> simp [h]
  | cons r t ih =>
    intro m
    rw [List.foldl_cons, ih, List.filter_cons]
    by_cases h : f r = kv
    · rw [if_pos (by simp [h]), assocGet_multiAdd, if_pos h]
      cases hm : assocGet m kv <;> simp [hm]
    · rw [if_neg (by simp [h]), assocGet_multiAdd, if_neg h]

end FoldLemmas

theorem List.zip_map_self_mem {α β : Type} (f : α → β) :
    ∀ (l : List α) (x : α) (y : β), (x, y) ∈ l.zip (l.map f) → y = f x := by
  intro l
  induction l with
  | nil => intro x y h; simp at h
  | cons a t ih =>
    intro x y h
    simp only [List.map_cons, List.zip_cons_cons, List.mem_cons, Prod.mk.injEq] at h
    rcases h with ⟨hx, hy⟩ | h
    · rw [hy, hx]
    · exact ih x y h

/-- The record `{id:1, name:'A'}` of the last-writer-wins example. -/
def recNameA : Fields :=
  .fcons "id" (.prim (.pnum 1)) (.fcons "name" (.prim (.pstr "A")) .fnil)

/-- The record `{id:1, name:'Alice', age:25}` of the grouping example. -/
def recAlice : Fields :=
  .fcons "id" (.prim (.pnum 1))
    (.fcons "name" (.prim (.pstr "Alice")) (.fcons "age" (.prim (.pnum 25)) .fnil))

/-- The record `{id:1, name:'Anna', age:30}` of the grouping example. -/
def recAnna : Fields :=
  .fcons "id" (.prim (.pnum 1))
    (.fcons "name" (.prim (.pstr "Anna")) (.fcons "age" (.prim (.pnum 30)) .fnil))

/-- The record `{id:2, name:'Bob', age:40}` of the grouping example. -/
def recBob : Fields :=
  .fcons "id" (.prim (.pnum 2))
    (.fcons "name" (.prim (.pstr "Bob")) (.fcons "age" (.prim (.pnum 40)) .fnil))

theorem arrayToMultiRecordGo_ok (keyProp : String) (sel : ValueSel) :
    ∀ (a : List Fields) (acc : List (String × List Value)),
      (∀ r ∈ a, toPropKey (r.get keyProp) ∉ objectPrototypeKeys) →
      Transformers.arrayToMultiRecordGo keyProp sel a acc =
        .ok (a.foldl
          (fun m r => multiAdd m (toPropKey (r.get keyProp)) (resolveValue sel r))
          acc) := by
  intro a
  induction a with
  | nil => intro acc _; rfl
  | cons r t ih =>
    intro acc h
    have hk : toPropKey (r.get keyProp) ∉ objectPrototypeKeys := h r (by simp)
    rw [List.foldl_cons]
    cases hm : assocGet acc (toPropKey (r.get keyProp)) with
    | some vs =>
      rw [show Transformers.arrayToMultiRecordGo keyProp sel (r :: t) acc =
          Transformers.arrayToMultiRecordGo keyProp sel t
            (multiAdd acc (toPropKey (r.get keyProp)) (resolveValue sel r)) from by
        simp [Transformers.arrayToMultiRecordGo, hm]]
      exact ih _ (fun q hq => h q (by simp [hq]))
    | none =>
      rw [show Transformers.arrayToMultiRecordGo keyProp sel (r :: t) acc =
          Transformers.arrayToMultiRecordGo keyProp sel t
            (multiAdd acc (toPropKey (r.get keyProp)) (resolveValue sel r)) from by
        simp [Transformers.arrayToMultiRecordGo, hm, hk]]
      exact ih _ (fun q hq => h q (by simp [hq]))

/-- C3 counterexample: a record whose key field stringifies to
`constructor` makes `arrayToMultiRecord` read the inherited
`Object.prototype.constructor` instead of `undefined`, so the push on it
throws a `TypeError` and no container is produced — the
total-count-equals-n claim fails for the record builder. -/
theorem multiRecord_prototype_key_throws :
    Transformers.arrayToMultiRecord
        [Fields.fcons "k" (Value.prim (Prim.pstr "constructor")) Fields.fnil]
        "k" .whole = .error .typeError := rfl

/-- C3 (amended): `arrayToMultiMap` drops no record — the total number of
stored values across all groups equals the input length, unconditionally.
`arrayToMultiRecord` shares the no-drop property exactly on inputs whose
stringified resolved keys avoid the `Object.prototype` member names: then
it returns a container storing all n values; at such a key it instead reads
the inherited member and throws a `TypeError`, producing no container. -/
theorem multiValued_no_drop :
    (∀ (a : List Fields) (keyProp : String) (sel : ValueSel),
        multiCount (Transformers.arrayToMultiMap a keyProp sel) = a.length)
    ∧ (∀ (a : List Fields) (keyProp : String) (sel : ValueSel),
        (∀ r ∈ a, toPropKey (r.get keyProp) ∉ objectPrototypeKeys) →
        ∃ m, Transformers.arrayToMultiRecord a keyProp sel = .ok m ∧
          multiCount m = a.length) := by
  constructor
  · intro a keyProp sel
    unfold Transformers.arrayToMultiMap
    rw [multiCount_foldl_multiAdd (fun r : Fields => r.get keyProp)
      (fun r : Fields => resolveValue sel r) a []]
    simp [multiCount]
  · intro a keyProp sel h
    refine ⟨a.foldl
      (fun m r => multiAdd m (toPropKey (r.get keyProp)) (resolveValue sel r))
      [], ?_, ?_⟩
    · unfold Transformers.arrayToMultiRecord
      exact arrayToMultiRecordGo_ok keyProp sel a [] h
    · rw [multiCount_foldl_multiAdd (fun r : Fields => toPropKey (r.get keyProp))
        (fun r : Fields => resolveValue sel r) a []]
      simp [multiCount]

/-- Witness for the no-drop theorem: on the Alice/Anna/Bob input, whose
keys avoid the `Object.prototype` member names, the multi-record is built
and stores all three values. -/
theorem multiValued_no_drop_witness :
    (∀ r ∈ [recAlice, recAnna, recBob],
        toPropKey (r.get "id") ∉ objectPrototypeKeys) ∧
    ∃ m, Transformers.arrayToMultiRecord [recAlice, recAnna, recBob] "id"
        (.field "name") = .ok m ∧ multiCount m = 3 :=
  ⟨by decide, multiValued_no_drop.2 [recAlice, recAnna, recBob] "id"
    (.field "name") (by decide)⟩

/-- C4: `arrayToMultiMap` groups stably: its keys appear in first-seen input
order, each key's group is exactly the values of the records with that key in
input order, and the worked example groups `1 → ['Alice','Anna']`,
`2 → ['Bob']`. -/
theorem multiMap_stable_grouping :
    (∀ (a : List Fields) (keyProp : String) (sel : ValueSel),
        (Transformers.arrayToMultiMap a keyProp sel).map Prod.fst =
          firstSeen (a.map fun r => r.get keyProp))
    ∧ (∀ (a : List Fields) (keyProp : String) (sel : ValueSel) (kv : Value),
        assocGet (Transformers.arrayToMultiMap a keyProp sel) kv =
          (let gl := (a.filter fun r => decide (r.get keyProp = kv)).map
              (resolveValue sel)
           if gl.isEmpty then none else some gl))
    ∧ Transformers.arrayToMultiMap [recAlice, recAnna, recBob] "id" (.field "name") =
        [(.prim (.pnum 1), [.prim (.pstr "Alice"), .prim (.pstr "Anna")]),
         (.prim (.pnum 2), [.prim (.pstr "Bob")])] := by
  refine ⟨?_, ?_, by decide⟩
  · intro a keyProp sel
    unfold Transformers.arrayToMultiMap
    rw [keys_foldl_multiAdd (fun r : Fields => r.get keyProp)
      (fun r : Fields => resolveValue sel r) a []]
    rfl
  · intro a keyProp sel kv
    unfold Transformers.arrayToMultiMap
    rw [assocGet_foldl_multiAdd (fun r : Fields => r.get keyProp)
      (fun r : Fields => resolveValue sel r) kv a []]
    rfl

/-- C1: building a single-valued map with key field `keyProp` from records
that all carry that field with pairwise distinct values and projecting it
back with the scalar/composite reverse projector reproduces the input
sequence up to permutation (here in fact exactly). -/
theorem roundtrip_singleMap_perm :
    ∀ (a : List Fields) (keyProp : String),
      (∀ r ∈ a, r.has keyProp = true) →
      (a.map fun r => r.get keyProp).Nodup →
      (Part002.mapToArray (Keyed.jmap (Transformers.arrayToMap a keyProp .whole))
          keyProp).Perm a := by
  intro a keyProp hhas hnd
  have h1 : Transformers.arrayToMap a keyProp .whole =
      a.map fun item => (item.get keyProp, resolveValue ValueSel.whole item) := by
    unfold Transformers.arrayToMap Transformers.mkMap
    have hk : (((a.map fun item =>
        (item.get keyProp, resolveValue ValueSel.whole item)).map Prod.fst)).Nodup := by
      simpa [List.map_map, Function.comp] using hnd
    simpa using foldl_assocSet_of_nodup
      (a.map fun item => (item.get keyProp, resolveValue ValueSel.whole item)) []
      (by simpa using hk)
  have h2 : Part002.mapToArray
      (Keyed.jmap (a.map fun item =>
        (item.get keyProp, resolveValue ValueSel.whole item))) keyProp = a := by
    unfold Part002.mapToArray entriesOf
    rw [List.map_map]
    have hpt : ∀ r ∈ a,
        ((fun e : Value × Value =>
            match e.2 with
            | .vobj o => o.set keyProp e.1
            | .prim q => Fields.ofPairs [(keyProp, e.1), ("value", .prim q)]) ∘
          fun item => (item.get keyProp, resolveValue ValueSel.whole item)) r = r := by
      intro r hr
      simp only [Function.comp, resolveValue]
      exact Fields.set_get_self_of_has r keyProp (hhas r hr)
    rw [List.map_congr_left hpt]
    simp
  rw [h1, h2]

/-- Witness for the round-trip theorem on the concrete uniquely-keyed input
`[{id:1,name:'A'}, {id:2,name:'Bob',age:40}]`. -/
theorem roundtrip_singleMap_perm_witness :
    (∀ r ∈ [recNameA, recBob], r.has "id" = true) ∧
    ([recNameA, recBob].map fun r => r.get "id").Nodup ∧
    (Part002.mapToArray
        (Keyed.jmap (Transformers.arrayToMap [recNameA, recBob] "id" .whole))
        "id").Perm [recNameA, recBob] :=
  ⟨by decide, by decide,
    roundtrip_singleMap_perm [recNameA, recBob] "id" (by decide) (by decide)⟩

/-- C7: the validating `arrayToMap` and `arrayToRecord` fail with
`InvalidInput` exactly when the primary input is not an array, and on an
array input they return the fully built container (a raised failure carries
no partial container). -/
theorem validated_invalid_input_iff :
    ∀ (input : JsInput) (keyProp : String) (sel : ValueSel),
      ((Validated.arrayToMap input keyProp sel = .error .invalidInput) ↔
        (∀ a, input ≠ .isArr a))
      ∧ ((Validated.arrayToRecord input keyProp sel = .error .invalidInput) ↔
        (∀ a, input ≠ .isArr a))
      ∧ (∀ a, input = .isArr a →
          Validated.arrayToMap input keyProp sel =
              .ok (Validated.arrayToMapCore a keyProp sel) ∧
            Validated.arrayToRecord input keyProp sel =
              .ok (Validated.arrayToRecordCore a keyProp sel)) := by
  intro input keyProp sel
  refine ⟨?_, ?_, ?_⟩
  · cases input with
    | isArr a => simp [Validated.arrayToMap]
    | notArr v => simp [Validated.arrayToMap]
  · cases input with
    | isArr a => simp [Validated.arrayToRecord]
    | notArr v => simp [Validated.arrayToRecord]
  · intro a h
    subst h
    exact ⟨rfl, rfl⟩

/-- Witness for the validation theorem: a `null` input is rejected with
`InvalidInput`, and the array `[{id:1,name:'A'}]` is accepted. -/
theorem validated_invalid_input_iff_witness :
    Validated.arrayToMap (.notArr (.prim .pnull)) "id" .whole =
        .error .invalidInput ∧
      Validated.arrayToRecord (.isArr [recNameA]) "id" .whole =
        .ok (Validated.arrayToRecordCore [recNameA] "id" .whole) :=
  ⟨((validated_invalid_input_iff (.notArr (.prim .pnull)) "id" .whole).1).mpr
      (fun a h => by cases h),
    ((validated_invalid_input_iff (.isArr [recNameA]) "id" .whole).2.2 [recNameA]
      rfl).2⟩

/-- C5 (amended): the scalar/composite reverse projector emits, per
`(key, value)` pair in container-iteration order, for a record-shaped value
the value's fields with the key field added or overwritten to the key, and
for a scalar value — provided the key field name is not the fixed name
`value` — a record with exactly the two fields `keyProp` and `value`; when
`keyProp` is `value` itself the two collide and the scalar wins. -/
theorem mapToArray_entry_shapes :
    ∀ (data : Keyed Value) (keyProp : String),
      (Part002.mapToArray data keyProp).length = (entriesOf data).length ∧
      (∀ kv r, (kv, r) ∈ (entriesOf data).zip (Part002.mapToArray data keyProp) →
        (∀ o, kv.2 = .vobj o →
          r.get keyProp = kv.1 ∧
          (∀ p, p ≠ keyProp → r.get p = o.get p) ∧
          (∀ p, r.has p = (o.has p || decide (keyProp = p)))) ∧
        (∀ q, kv.2 = .prim q → keyProp ≠ "value" →
          r = .fcons keyProp kv.1 (.fcons "value" (.prim q) .fnil))) := by
  intro data keyProp
  constructor
  · simp [Part002.mapToArray]
  · intro kv r hmem
    have hr : r = (fun e : Value × Value =>
        match e.2 with
        | .vobj o => o.set keyProp e.1
        | .prim q => Fields.ofPairs [(keyProp, e.1), ("value", .prim q)]) kv := by
      exact List.zip_map_self_mem _ (entriesOf data) kv r hmem
    obtain ⟨kk, vv⟩ := kv
    constructor
    · intro o ho
      have hv : vv = .vobj o := ho
      subst hv
      rw [hr]
      refine ⟨Fields.get_set_self o keyProp kk, ?_, ?_⟩
      · intro p hp
        exact Fields.get_set_ne o keyProp p kk (fun h => hp h.symm)
      · intro p
        exact Fields.has_set o keyProp p kk
    · intro q hq hne
      have hv : vv = .prim q := hq
      subst hv
      rw [hr]
      show Fields.ofPairs [(keyProp, kk), ("value", .prim q)] = _
      simp [Fields.ofPairs, Fields.set, hne]

/-- C5 counterexample: with key field name `value` and a scalar entry the
claimed two output fields collide, leaving a single field holding the scalar
(not two fields as claimed). -/
theorem mapToArray_value_key_collision :
    Part002.mapToArray
        (Keyed.jmap [(Value.prim (Prim.pstr "x"), Value.prim (Prim.pnum 7))])
        "value" =
      [Fields.fcons "value" (Value.prim (Prim.pnum 7)) Fields.fnil] ∧
    (Fields.fcons "value" (Value.prim (Prim.pnum 7)) Fields.fnil).size = 1 :=
  ⟨by decide, by decide⟩

/-- Witness for the reverse-projector shape theorem: a composite entry
restores its key under the fresh field `k`, and a scalar entry yields exactly
the two fields `k` and `value`. -/
theorem mapToArray_entry_shapes_witness :
    (Fields.fcons "id" (Value.prim (Prim.pnum 1))
        (Fields.fcons "name" (Value.prim (Prim.pstr "A"))
          (Fields.fcons "k" (Value.prim (Prim.pnum 1)) Fields.fnil))).get "k" =
      Value.prim (Prim.pnum 1) ∧
    Fields.fcons "k" (Value.prim (Prim.pstr "x"))
        (Fields.fcons "value" (Value.prim (Prim.pnum 5)) Fields.fnil) =
      Fields.fcons "k" (Value.prim (Prim.pstr "x"))
        (Fields.fcons "value" (Value.prim (Prim.pnum 5)) Fields.fnil) :=
  ⟨(((mapToArray_entry_shapes
        (Keyed.jmap [(Value.prim (Prim.pnum 1), Value.vobj recNameA)]) "k").2
      (Value.prim (Prim.pnum 1), Value.vobj recNameA)
      (Fields.fcons "id" (Value.prim (Prim.pnum 1))
        (Fields.fcons "name" (Value.prim (Prim.pstr "A"))
          (Fields.fcons "k" (Value.prim (Prim.pnum 1)) Fields.fnil)))
      (by decide)).1 recNameA rfl).1,
    ((mapToArray_entry_shapes
        (Keyed.jmap [(Value.prim (Prim.pstr "x"), Value.prim (Prim.pnum 5))]) "k").2
      (Value.prim (Prim.pstr "x"), Value.prim (Prim.pnum 5))
      (Fields.fcons "k" (Value.prim (Prim.pstr "x"))
        (Fields.fcons "value" (Value.prim (Prim.pnum 5)) Fields.fnil))
      (by decide)).2 (Prim.pnum 5) rfl (by decide)⟩

/-- C10 (amended): a `Record` input is enumerated via `Object.entries`, which
stringifies keys.  The scalar/composite reverse projector therefore restores
the key field of every output record as a string (key field name other than
`value`); `multiMapToArray` does so too when its selector is a single field
name distinct from the key field name and nonempty; a `Map` input has its
key value restored unchanged; and the numeric-keyed record
`arrayToRecord [{id:1,name:'A'}] 'id'` projects back with the string key
field `'1'`, not the number `1`. -/
theorem record_key_stringification :
    (∀ (es : List (String × Value)) (keyProp : String), keyProp ≠ "value" →
        ∀ r ∈ Part002.mapToArray (.jrec es) keyProp,
          ∃ s, r.get keyProp = .prim (.pstr s))
    ∧ (∀ (es : List (String × List Value)) (keyProp p : String),
        p ≠ keyProp → p ≠ "" →
        ∀ r ∈ Transformers.multiMapToArray (.jrec es) keyProp (some (.field p)),
          ∃ s, r.get keyProp = .prim (.pstr s))
    ∧ (∀ (m : List (Value × Value)) (keyProp : String), keyProp ≠ "value" →
        ∀ kv r, (kv, r) ∈ m.zip (Part002.mapToArray (.jmap m) keyProp) →
          r.get keyProp = kv.1)
    ∧ Part002.mapToArray
        (.jrec (Transformers.arrayToRecord [recNameA] "id" .whole)) "id" =
        [.fcons "id" (.prim (.pstr "1"))
          (.fcons "name" (.prim (.pstr "A")) .fnil)] := by
  refine ⟨?_, ?_, ?_, by decide⟩
  · intro es keyProp hne r hr
    unfold Part002.mapToArray entriesOf at hr
    rw [List.map_map, List.mem_map] at hr
    obtain ⟨e, _, he⟩ := hr
    rw [← he]
    simp only [Function.comp]
    cases e.2 with
    | vobj o =>
      exact ⟨e.1, Fields.get_set_self o keyProp (.prim (.pstr e.1))⟩
    | prim q =>
      refine ⟨e.1, ?_⟩
      show (Fields.ofPairs [(keyProp, .prim (.pstr e.1)), ("value", .prim q)]).get
          keyProp = _
      simp [Fields.ofPairs, Fields.set, Fields.get, hne]
  · intro es keyProp p hpk hpe r hr
    unfold Transformers.multiMapToArray entriesOf at hr
    rw [List.mem_flatMap] at hr
    obtain ⟨e, he, hre⟩ := hr
    rw [List.mem_map] at hre
    obtain ⟨v, _, hv⟩ := hre
    rw [List.mem_map] at he
    obtain ⟨e0, _, he0⟩ := he
    refine ⟨e0.1, ?_⟩
    rw [← hv]
    show ((if p = "" then spreadValue (Fields.fcons keyProp e.1 Fields.fnil) v
        else (Fields.fcons keyProp e.1 Fields.fnil).spread
          (Fields.ofPairs [(p, v)]))).get keyProp = _
    rw [if_neg hpe]
    have hsp : (Fields.fcons keyProp e.1 Fields.fnil).spread
        (Fields.ofPairs [(p, v)]) = .fcons keyProp e.1 (.fcons p v .fnil) := by
      simp [Fields.ofPairs, Fields.spread, Fields.set,
        show ¬keyProp = p from fun h => hpk h.symm]
    rw [hsp, ← he0]
    simp [Fields.get]
  · intro m keyProp hne kv r hmem
    have hr : r = (fun e : Value × Value =>
        match e.2 with
        | .vobj o => o.set keyProp e.1
        | .prim q => Fields.ofPairs [(keyProp, e.1), ("value", .prim q)]) kv := by
      exact List.zip_map_self_mem _ m kv r hmem
    obtain ⟨kk, vv⟩ := kv
    cases vv with
    | vobj o =>
      rw [hr]
      exact Fields.get_set_self o keyProp kk
    | prim q =>
      rw [hr]
      show (Fields.ofPairs [(keyProp, kk), ("value", .prim q)]).get keyProp = kk
      simp [Fields.ofPairs, Fields.set, Fields.get, hne]

/-- C10 counterexample: a `Record` input whose stored whole-record value
itself carries the key field: `multiMapToArray` writes the stringified key
first and then spreads the value, so the value's original numeric `id`
overwrites the restored string key — the output key field is not a
string. -/
theorem record_key_overwritten_by_value :
    Transformers.multiMapToArray
        (Keyed.jrec [("1",
          [Value.vobj (Fields.fcons "id" (Value.prim (Prim.pnum 1)) Fields.fnil)])])
        "id" none =
      [Fields.fcons "id" (Value.prim (Prim.pnum 1)) Fields.fnil] ∧
    (Fields.fcons "id" (Value.prim (Prim.pnum 1)) Fields.fnil).get "id" =
      Value.prim (Prim.pnum 1) :=
  ⟨by decide, by decide⟩

/-- Witness for the key-stringification theorem: the scalar entry of the
record `{a: 5}` projects back with the string key field `'a'`. -/
theorem record_key_stringification_witness :
    ∃ s, (Fields.fcons "id" (Value.prim (Prim.pstr "a"))
        (Fields.fcons "value" (Value.prim (Prim.pnum 5)) Fields.fnil)).get "id" =
      Value.prim (Prim.pstr s) :=
  record_key_stringification.1 [("a", Value.prim (Prim.pnum 5))] "id" (by decide)
    (Fields.fcons "id" (Value.prim (Prim.pstr "a"))
      (Fields.fcons "value" (Value.prim (Prim.pnum 5)) Fields.fnil))
    (by decide)
